import Mathlib

/-!
Verification development for the repo-timeline repository.

This file gives a shallow embedding, in Lean 4, of the parts of the
repo-timeline code base that the specification's claims are about:

* `FileStateTracker` (src/src/utils/fileStateTracker.ts) — cumulative
  file-size tracking over a stream of PR file diffs;
* the snapshot-builder edge construction (the standalone buildEdges test
  script shipped in the repository) together with a spec-modelled
  directory-node synthesis;
* `fetchOldestCommits` / the Link-header pagination quirk workaround
  (src/worker/src/api/github.ts);
* `fetchMergedPRs` in both its worker-inline and github-module variants;
* the worker's D1 persistence layer (`storeRepoData`, `getCachedData`,
  `fetchAndCacheRepo`, the fetch handler) from src/worker/src/index.ts;
* `IndexedDBService` (saveCommits / loadCommits / getCacheInfo);
* the client orchestrator's `loadCommits` callback
  (src/src/components/PerformanceSettingsModal.tsx).

JavaScript `Map`s are modelled as association lists with the same
first-occurrence update semantics, machine numbers as `Nat`/`Int`, dates as
integer timestamps, and the D1 / IndexedDB stores as explicit record states.
Fallible upstream interactions are modelled with `Option`.
-/

namespace RepoTimeline

/-! ## File-state tracker (src/src/utils/fileStateTracker.ts) -/

/-- Status of one file inside a PR, as delivered by the GitHub API. -/
inductive FileDiffStatus
  | added
  | modified
  | removed
  | renamed
  deriving DecidableEq, Repr

/-- `GitHubPRFile` — one file's diff inside a PR.  `additions` and
`deletions` are the non-negative line counts from the API. -/
structure GitHubPRFile where
  filename : String
  status : FileDiffStatus
  additions : Nat
  deletions : Nat
  previous_filename : Option String := none
  deriving DecidableEq, Repr

/-- Lookup in a JS `Map` represented as an association list. -/
def lookupEntries : List (String × Int) → String → Option Int
  | [], _ => none
  | e :: rest, k => if e.1 = k then some e.2 else lookupEntries rest k

/-- `Map.set`: update the first entry with the key in place, else append. -/
def setEntries : List (String × Int) → String → Int → List (String × Int)
  | [], k, v => [(k, v)]
  | e :: rest, k, v => if e.1 = k then (k, v) :: rest else e :: setEntries rest k v

/-- `Map.delete`. -/
def eraseEntries (l : List (String × Int)) (k : String) : List (String × Int) :=
  l.filter (fun e => e.1 ≠ k)

/-- The tracker's private `fileState` map (path → cumulative size).  Sizes
are `Int` because the code applies `additions - deletions` deltas without
clamping. -/
structure FileState where
  entries : List (String × Int)
  deriving DecidableEq, Repr

def FileState.lookup (s : FileState) (k : String) : Option Int :=
  lookupEntries s.entries k

/-- `this.fileState.get(k) || 0`. -/
def FileState.lookupOr0 (s : FileState) (k : String) : Int :=
  (s.lookup k).getD 0

def FileState.set (s : FileState) (k : String) (v : Int) : FileState :=
  ⟨setEntries s.entries k v⟩

def FileState.erase (s : FileState) (k : String) : FileState :=
  ⟨eraseEntries s.entries k⟩

/-- One iteration of the `for (const file of prFiles)` loop in
`FileStateTracker.updateFromPRFiles`.  The `renamed` branch fires only when
`previous_filename` is truthy (present and non-empty), exactly as
`file.status === "renamed" && file.previous_filename` does in JS. -/
def applyPRFile (s : FileState) (f : GitHubPRFile) : FileState :=
  if f.status = .removed then
    s.erase f.filename
  else
    match f.status, f.previous_filename with
    | .renamed, some prev =>
      if prev = "" then
        s.set f.filename (s.lookupOr0 f.filename + (f.additions : Int) - (f.deletions : Int))
      else
        (s.erase prev).set f.filename (s.lookupOr0 prev + (f.additions : Int) - (f.deletions : Int))
    | _, _ =>
      s.set f.filename (s.lookupOr0 f.filename + (f.additions : Int) - (f.deletions : Int))

/-- `FileStateTracker.updateFromPRFiles`. -/
def updateFromPRFiles (s : FileState) (prFiles : List GitHubPRFile) : FileState :=
  prFiles.foldl applyPRFile s

/-- `FileStateTracker.getFileData`: the snapshot input, with sizes clamped
at 0 (`Math.max(0, size)`). -/
def getFileData (s : FileState) : List (String × Int) :=
  s.entries.map (fun e => (e.1, max 0 e.2))

/-! ## IndexedDBService (client cache store) -/

/-- `CommitData` from src/types, as cached by the client store. -/
structure CommitData where
  sha : String
  message : String
  author : String
  date : Nat
  files : List GitHubPRFile
  deriving DecidableEq, Repr

/-- `CachedRepoData` — the envelope stored per repository key. -/
structure CachedRepoData where
  repoKey : String
  commits : List CommitData
  lastUpdated : Nat
  version : Nat
  deriving DecidableEq, Repr

def CACHE_VERSION : Nat := 2

/-- 24 hours in milliseconds. -/
def CACHE_EXPIRY_MS : Nat := 24 * 60 * 60 * 1000

namespace IndexedDBService

/-- The object store (keyPath `repoKey`). -/
abbrev Store := List CachedRepoData

/-- `store.get(repoKey)`. -/
def findEnvelope (store : Store) (repoKey : String) : Option CachedRepoData :=
  store.find? (fun d => d.repoKey = repoKey)

/-- `store.put(data)`: replace the envelope with the same key, else add. -/
def putEnvelope : Store → CachedRepoData → Store
  | [], d => [d]
  | e :: rest, d => if e.repoKey = d.repoKey then d :: rest else e :: putEnvelope rest d

/-- `store.delete(repoKey)` (the body of `clearCache`). -/
def deleteEnvelope (store : Store) (repoKey : String) : Store :=
  store.filter (fun d => d.repoKey ≠ repoKey)

/-- `IndexedDBService.saveCommits`: wraps the records with
`lastUpdated = Date.now()` and the current `CACHE_VERSION`, replacing any
prior envelope for the key. -/
def saveCommits (store : Store) (repoKey : String) (commits : List CommitData)
    (now : Nat) : Store :=
  putEnvelope store ⟨repoKey, commits, now, CACHE_VERSION⟩

/-- `IndexedDBService.loadCommits`: returns the loaded payload (with each
commit's date re-materialized via `new Date(commit.date)`) and the store
after the read's side effects (stale envelopes are deleted). -/
def loadCommits (store : Store) (repoKey : String) (now : Nat) :
    Option (List CommitData) × Store :=
  match findEnvelope store repoKey with
  | none => (none, store)
  | some data =>
    if data.version ≠ CACHE_VERSION then
      (none, deleteEnvelope store repoKey)
    else if CACHE_EXPIRY_MS < now - data.lastUpdated then
      (none, deleteEnvelope store repoKey)
    else
      (some (data.commits.map (fun c => { c with date := c.date })), store)

/-- Result shape of `getCacheInfo` (`exists` is a Lean keyword, hence
`existsFlag`). -/
structure CacheInfo where
  existsFlag : Bool
  age : Option Nat
  commitCount : Option Nat
  deriving DecidableEq, Repr

/-- `IndexedDBService.getCacheInfo`: reports presence, age and commit count
of whatever envelope is stored, with no version or expiry check. -/
def getCacheInfo (store : Store) (repoKey : String) (now : Nat) : CacheInfo :=
  match findEnvelope store repoKey with
  | none => ⟨false, none, none⟩
  | some data => ⟨true, some (now - data.lastUpdated), some data.commits.length⟩

end IndexedDBService

/-! ## Client load orchestrator (`RepoTimeline.loadCommits` callback) -/

/-- Outcome of one `gitService.getCommitHistory` call. -/
inductive FetchOutcome where
  | ok (commits : List CommitData)
  | err (msg : String)
  deriving DecidableEq, Repr

/-- The component state touched by the `loadCommits` callback. -/
structure OrchState where
  loading : Bool
  backgroundLoading : Bool
  commits : List CommitData
  error : Option String
  fromCache : Bool
  rateLimitedCache : Bool
  deriving DecidableEq, Repr

/-- The `loadCommits` `useCallback` body, as a pure state transformer.
`cacheExists` is `gitService.getCacheInfo().exists`; `blocking` is the
blocking cache-path fetch, `incDelivered`/`incOutcome` the incremental
fetch (items streamed before the outcome), `fallback` the cache load
attempted after an incremental error. -/
def loadCommitsOrch (st0 : OrchState) (cacheExists forceRefresh : Bool)
    (blocking : FetchOutcome) (incDelivered : List CommitData)
    (incOutcome : FetchOutcome) (fallback : FetchOutcome) : OrchState :=
  if cacheExists && !forceRefresh then
    match blocking with
    | .ok cs =>
      { st0 with loading := false, commits := cs, fromCache := true,
                 rateLimitedCache := false, error := none }
    | .err m =>
      { st0 with loading := false, error := some m, rateLimitedCache := false }
  else
    let st1 := { st0 with loading := false, backgroundLoading := true,
                          commits := [], fromCache := false }
    let st2 :=
      match incOutcome with
      | .ok cs => { st1 with commits := cs }
      | .err m =>
        let stPartial := { st1 with commits := incDelivered }
        if cacheExists then
          match fallback with
          | .ok cached =>
            { stPartial with commits := cached, fromCache := true,
                             rateLimitedCache := true, error := none }
          | .err _ =>
            { stPartial with error := some m, rateLimitedCache := false }
        else
          { stPartial with error := some m, rateLimitedCache := false }
    { st2 with backgroundLoading := false }

/-- The component renders the timeline (rather than the loading or error
screen) exactly when it is not loading and has no error. -/
def OrchState.isReady (s : OrchState) : Prop :=
  s.loading = false ∧ s.error = none

/-! ## Upstream client: `fetchOldestCommits` (src/worker/src/api/github.ts) -/

/-- One page of the upstream `/commits` listing:
`per_page = perPage`, 1-based `page`. -/
def pageSlice {α : Type} (commits : List α) (perPage page : Nat) : List α :=
  (commits.drop ((page - 1) * perPage)).take perPage

/-- `fetchOldestCommits`, over an upstream abstracted as the full
newest-first commit listing.  `linkLast` is the (possibly wrong) `rel="last"`
page number parsed from the HEAD request's Link header (`none` when the
header or the `rel="last"` entry is absent), and `probedCount` is the total
count obtained by `fetchCommitCount`'s 1-item probe.  Returns the result
list together with the list of `per_page=100` commit-page numbers actually
requested (the HEAD request and the 1-item probe are not counted). -/
def fetchOldestCommits {α : Type} (commits : List α) (linkLast : Option Nat)
    (probedCount maxCommitsToReturn : Nat) : List α × List Nat :=
  match linkLast with
  | none => ((pageSlice commits 100 1).reverse.take maxCommitsToReturn, [1])
  | some lastPage =>
    let lastPageCommits := pageSlice commits 100 lastPage
    if lastPageCommits.isEmpty then
      let actualLastPage := (probedCount + 99) / 100
      if actualLastPage = lastPage then ([], [lastPage])
      else
        let c2 := pageSlice commits 100 actualLastPage
        if c2.isEmpty then ([], [lastPage, actualLastPage])
        else (c2.reverse.take maxCommitsToReturn, [lastPage, actualLastPage])
    else (lastPageCommits.reverse.take maxCommitsToReturn, [lastPage])

/-! ## `fetchMergedPRs`: worker-inline and github-module variants -/

/-- The worker's `PullRequest` shape (`user.login` flattened to `author`;
`merged_at` is `none` for a closed-but-unmerged PR). -/
structure PullRequestMeta where
  number : Nat
  title : String
  author : String
  merged_at : Option Nat
  deriving DecidableEq, Repr

/-- A PR together with the files fetched for it (`{ ...pr, files }`). -/
structure PRWithFiles where
  pr : PullRequestMeta
  files : List GitHubPRFile
  deriving DecidableEq, Repr

/-- Loop body of the worker-inline `fetchMergedPRs`
(src/worker/src/index.ts): `while (true)` paging, no page ceiling.  `pages`
is the upstream listing by page number, `fileFetch` the per-PR files
sub-request (`none` = failed, degraded to `[]`).  The loop has no bound of
its own, so it is modelled with explicit fuel: `none` means the loop is
still running after `fuel` page requests.  On termination it returns the
accumulated PRs and the number of page requests made. -/
def workerFetchMergedPRsGo (pages : Nat → List PullRequestMeta)
    (fileFetch : Nat → Option (List GitHubPRFile)) (sinceNumber : Option Nat) :
    Nat → Nat → List PRWithFiles → Option (List PRWithFiles × Nat)
  | 0, _, _ => none
  | fuel + 1, page, acc =>
    let prs := pages page
    if prs.isEmpty then some (acc, page)
    else
      let mergedPRs := prs.filter (fun pr => pr.merged_at.isSome)
      let newPRs :=
        match sinceNumber with
        | some s => mergedPRs.filter (fun pr : PullRequestMeta => s ≤ pr.number)
        | none => mergedPRs
      let acc := acc ++ newPRs.map (fun pr => ⟨pr, (fileFetch pr.number).getD []⟩)
      if prs.length < 100 then some (acc, page)
      else workerFetchMergedPRsGo pages fileFetch sinceNumber fuel (page + 1) acc

/-- Worker-inline `fetchMergedPRs` (src/worker/src/index.ts, lines 263-340). -/
def workerFetchMergedPRs (pages : Nat → List PullRequestMeta)
    (fileFetch : Nat → Option (List GitHubPRFile)) (sinceNumber : Option Nat)
    (fuel : Nat) : Option (List PRWithFiles × Nat) :=
  workerFetchMergedPRsGo pages fileFetch sinceNumber fuel 1 []

/-- Loop body of the github-module `fetchMergedPRs`
(src/worker/src/api/github.ts): `while (page <= maxPages)`, plus the
45-PR accumulation limit.  `fuel` counts the remaining admissible pages
(`maxPages - page + 1`), so the loop always terminates; the returned
`List Nat` is the list of page numbers requested. -/
def ghFetchMergedPRsGo (pages : Nat → List PullRequestMeta)
    (fileFetch : Nat → Option (List GitHubPRFile)) (sinceNumber : Option Nat) :
    Nat → Nat → List PRWithFiles → List Nat → List PRWithFiles × List Nat
  | 0, _, acc, reqs => (acc, reqs)
  | fuel + 1, page, acc, reqs =>
    let prs := pages page
    let reqs := reqs ++ [page]
    if prs.isEmpty then (acc, reqs)
    else
      let mergedPRs := prs.filter (fun pr => pr.merged_at.isSome)
      let newPRs :=
        match sinceNumber with
        | some s => mergedPRs.filter (fun pr : PullRequestMeta => s ≤ pr.number)
        | none => mergedPRs
      let prsToFetch :=
        if 45 < acc.length + newPRs.length then newPRs.take (45 - acc.length)
        else newPRs
      let acc := acc ++ prsToFetch.map (fun pr => ⟨pr, (fileFetch pr.number).getD []⟩)
      if 45 ≤ acc.length then (acc, reqs)
      else if prs.length < 100 then (acc, reqs)
      else ghFetchMergedPRsGo pages fileFetch sinceNumber fuel (page + 1) acc reqs

/-- Github-module `fetchMergedPRs` (src/worker/src/api/github.ts,
lines 491-579); `maxPages` defaults to 10 at the call sites. -/
def ghFetchMergedPRs (pages : Nat → List PullRequestMeta)
    (fileFetch : Nat → Option (List GitHubPRFile)) (sinceNumber : Option Nat)
    (maxPages : Nat) : List PRWithFiles × List Nat :=
  ghFetchMergedPRsGo pages fileFetch sinceNumber maxPages 1 [] []

/-- An adversarial upstream: every page is a full page of 100
closed-but-unmerged PRs. -/
def unmergedFullPages : Nat → List PullRequestMeta :=
  fun _ => (List.range 100).map (fun i => ⟨i, "", "", none⟩)

/-! ## Worker persistence layer (D1) -/

/-- A row of the `repos` table. -/
structure RepoRow where
  id : Nat
  owner : String
  name : String
  full_name : String
  last_updated : Nat
  last_pr_number : Nat
  created_at : Nat
  deriving DecidableEq, Repr

/-- A row of the `pull_requests` table. -/
structure PRRow where
  id : Nat
  repo_id : Nat
  pr_number : Nat
  title : String
  author : String
  merged_at : Nat
  created_at : Nat
  deriving DecidableEq, Repr

/-- A row of the `pr_files` table. -/
structure PRFileRow where
  pr_id : Nat
  filename : String
  status : FileDiffStatus
  additions : Nat
  deletions : Nat
  previous_filename : Option String
  deriving DecidableEq, Repr

/-- The D1 database state (ids model the AUTOINCREMENT keys). -/
structure D1Database where
  repos : List RepoRow
  pull_requests : List PRRow
  pr_files : List PRFileRow
  nextRepoId : Nat
  nextPrId : Nat
  deriving DecidableEq, Repr

/-- The prepared statements `storeRepoData` queues into its batch. -/
inductive D1Stmt where
  | upsertRepo (owner name full_name : String) (now lastPr : Nat)
  | updateRepo (full_name : String) (now lastPr : Nat)
  | insertPR (repo_id pr_number : Nat) (title author : String) (merged_at now : Nat)
  | insertFile (pr_id : Nat) (f : GitHubPRFile)
  deriving Repr

/-- Execute one statement (`INSERT ... ON CONFLICT` modelled per SQLite). -/
def applyStmt (db : D1Database) : D1Stmt → D1Database
  | .upsertRepo owner name fullName now lastPr =>
    if db.repos.any (fun r => r.full_name == fullName) then
      { db with repos := db.repos.map (fun r =>
          if r.full_name = fullName then
            { r with last_updated := now, last_pr_number := lastPr }
          else r) }
    else
      { db with
        repos := db.repos ++ [⟨db.nextRepoId, owner, name, fullName, now, lastPr, now⟩],
        nextRepoId := db.nextRepoId + 1 }
  | .updateRepo fullName now lastPr =>
    { db with repos := db.repos.map (fun r =>
        if r.full_name = fullName then
          { r with last_updated := now, last_pr_number := lastPr }
        else r) }
  | .insertPR repoId prNumber title author mergedAt now =>
    if db.pull_requests.any (fun p => p.repo_id == repoId && p.pr_number == prNumber) then
      db
    else
      { db with
        pull_requests :=
          db.pull_requests ++ [⟨db.nextPrId, repoId, prNumber, title, author, mergedAt, now⟩],
        nextPrId := db.nextPrId + 1 }
  | .insertFile prId f =>
    { db with pr_files :=
        db.pr_files ++ [⟨prId, f.filename, f.status, f.additions, f.deletions, f.previous_filename⟩] }

/-- `db.batch(batch)`: the queued statements execute sequentially, as one
atomic transaction (all-or-nothing). -/
def applyBatch (db : D1Database) (stmts : List D1Stmt) : D1Database :=
  stmts.foldl applyStmt db

/-- `Math.max(...prs.map(pr => pr.number))` over a non-empty list. -/
def maxPrNumber (prs : List PRWithFiles) : Nat :=
  prs.foldl (fun m pr => max m pr.pr.number) 0

/-- `storeRepoData` (src/worker/src/index.ts, lines 345-441).  Faithful to
the code's control flow: the batch is only *queued* while the `SELECT id`
lookups run against the **pre-batch** database state; the queued statements
execute only at the final `db.batch(batch)`.  `none` models the
`Failed to get repo ID` throw (nothing is written in that case). -/
def storeRepoData (db : D1Database) (owner name : String) (prs : List PRWithFiles)
    (isUpdate : Bool) (now : Nat) : Option D1Database :=
  let fullName := owner ++ "/" ++ name
  let batch1 : List D1Stmt :=
    if isUpdate then [.updateRepo fullName now (maxPrNumber prs)]
    else [.upsertRepo owner name fullName now
            (if 0 < prs.length then maxPrNumber prs else 0)]
  match db.repos.find? (fun r => r.full_name = fullName) with
  | none => none
  | some repo =>
    let step := fun (st : List D1Stmt) (prf : PRWithFiles) =>
      let st := st ++ [.insertPR repo.id prf.pr.number prf.pr.title prf.pr.author
                         ((prf.pr.merged_at.getD 0) / 1000) now]
      match db.pull_requests.find?
          (fun p => p.repo_id == repo.id && p.pr_number == prf.pr.number) with
      | some prRow => st ++ prf.files.map (.insertFile prRow.id)
      | none => st
    some (applyBatch db (prs.foldl step batch1))

/-- Files stored for one PR id, in GitHub API shape (`getCachedData`'s
`GROUP_CONCAT` + `JSON.parse` reconstruction). -/
def filesForPR (db : D1Database) (prId : Nat) : List GitHubPRFile :=
  (db.pr_files.filter (fun f => f.pr_id == prId)).map
    (fun f => ⟨f.filename, f.status, f.additions, f.deletions, f.previous_filename⟩)

/-- Insertion step for `ORDER BY pr.merged_at ASC`. -/
def insertByMergedAt (p : PRRow) : List PRRow → List PRRow
  | [] => [p]
  | q :: rest =>
    if p.merged_at ≤ q.merged_at then p :: q :: rest else q :: insertByMergedAt p rest

/-- `ORDER BY pr.merged_at ASC` (insertion sort, kernel-executable). -/
def sortByMergedAt : List PRRow → List PRRow
  | [] => []
  | p :: rest => insertByMergedAt p (sortByMergedAt rest)

/-- `getCachedData` (src/worker/src/index.ts, lines 142-203): `none` when
the repo row is absent **or** when the repo has no stored PR rows. -/
def getCachedData (db : D1Database) (fullName : String) :
    Option (List PRWithFiles × Nat × Nat) :=
  match db.repos.find? (fun r => r.full_name = fullName) with
  | none => none
  | some repo =>
    let rows := sortByMergedAt (db.pull_requests.filter (fun p => p.repo_id == repo.id))
    if rows.isEmpty then none
    else
      some (rows.map (fun p =>
              ⟨⟨p.pr_number, p.title, p.author, some (p.merged_at * 1000)⟩,
                filesForPR db p.id⟩),
            repo.last_updated, repo.last_pr_number)

/-- `fetchAndCacheRepo`: fetch merged PRs; an empty result is returned
as-is **without** touching the database. -/
def fetchAndCacheRepo (db : D1Database) (owner repo : String)
    (pages : Nat → List PullRequestMeta)
    (fileFetch : Nat → Option (List GitHubPRFile)) (fuel now : Nat) :
    Option (List PRWithFiles × D1Database) :=
  match workerFetchMergedPRs pages fileFetch none fuel with
  | none => none
  | some (prs, _) =>
    if prs.isEmpty then some ([], db)
    else
      match storeRepoData db owner repo prs false now with
      | none => none
      | some db2 => some (prs, db2)

/-- Result of one `/api/repo/:owner/:repo` request.  `response = none`
models the 500 error path; `backgroundTriggered` records that a stale cache
hit dispatched a detached `updateRepoData` (its effect is asynchronous and
not part of the response-time state). -/
structure HandlerResult where
  response : Option (List PRWithFiles)
  cacheHit : Bool
  backgroundTriggered : Bool
  db : D1Database
  deriving Repr

/-- The fetch handler's repo-request path (src/worker/src/index.ts,
lines 92-126). -/
def handleRepoRequest (db : D1Database) (owner repo : String)
    (pages : Nat → List PullRequestMeta)
    (fileFetch : Nat → Option (List GitHubPRFile)) (fuel now : Nat) :
    HandlerResult :=
  let fullName := owner ++ "/" ++ repo
  match getCachedData db fullName with
  | some (prs, lastUpdated, _) =>
    ⟨some prs, true, decide (3600 < now - lastUpdated), db⟩
  | none =>
    match fetchAndCacheRepo db owner repo pages fileFetch fuel now with
    | none => ⟨none, false, false, db⟩
    | some (prs, db2) => ⟨some prs, false, false, db2⟩

/-! ## Snapshot builder (buildEdges test script + spec-modelled node synthesis)

The production snapshot builder used by the app (the `GitService` with the
worker integration) is not part of this source snapshot; shipped alongside
it are its caller and two standalone test scripts that carry the edge
construction verbatim.  The edge construction below is the test script's;
the directory-node synthesis is modelled from the spec. -/

/-- Character-level split on `/` (accumulating the current component in
reverse). -/
def splitOnSlashAux : List Char → List Char → List String
  | [], cur => [String.mk cur.reverse]
  | c :: rest, cur =>
    if c = '/' then String.mk cur.reverse :: splitOnSlashAux rest []
    else splitOnSlashAux rest (c :: cur)

/-- `path.split("/")`: JS `split` on a one-character separator (`""` splits
to `[""]`, separators at the ends produce empty components). -/
def splitPath (p : String) : List String := splitOnSlashAux p.data []

/-- `parts.join("/")`. -/
def joinPath (parts : List String) : String := String.intercalate "/" parts

/-- A `parent → child` edge of the snapshot graph. -/
structure FileEdge where
  source : String
  target : String
  deriving DecidableEq, Repr

/-- Accumulator of the edge-building loop: the `edges` array and the
`directoriesAdded` dedup set (a set of edge-key strings in the script;
modelled as a list with membership checks). -/
structure EdgeAcc where
  edges : List FileEdge
  directoriesAdded : List String
  deriving DecidableEq, Repr

/-- The script's dedup key: `${parentDirPath || "/"}->${dirPath}`. -/
def dirEdgeKey (parentDirPath dirPath : String) : String :=
  (if parentDirPath = "" then "/" else parentDirPath) ++ "->" ++ dirPath

/-- One iteration of the directory loop at index `i`. -/
def dirStep (parts : List String) (st : EdgeAcc) (i : Nat) : EdgeAcc :=
  let dirPath := joinPath (parts.take (i + 1))
  let parentDirPath := if 0 < i then joinPath (parts.take i) else ""
  let edgeKey := dirEdgeKey parentDirPath dirPath
  if edgeKey ∈ st.directoriesAdded then st
  else
    { edges := st.edges ++ [⟨if parentDirPath = "" then "/" else parentDirPath, dirPath⟩],
      directoriesAdded := st.directoriesAdded ++ [edgeKey] }

/-- `for (let i = 0; i < pathParts.length - 1; i++)`, with `rem` the number
of remaining iterations. -/
def dirLoop (parts : List String) : Nat → Nat → EdgeAcc → EdgeAcc
  | _, 0, st => st
  | i, rem + 1, st => dirLoop parts (i + 1) rem (dirStep parts st i)

/-- Processing of one `{path, size}` entry by the edge builder. -/
def addFileEdges (st : EdgeAcc) (path : String) : EdgeAcc :=
  let pathParts := splitPath path
  if 1 < pathParts.length then
    let parentPath := joinPath pathParts.dropLast
    dirLoop pathParts 0 (pathParts.length - 1)
      { st with edges := st.edges ++ [⟨parentPath, path⟩] }
  else
    { st with edges := st.edges ++ [⟨"/", path⟩] }

/-- The edge builder over a flat `{path, size}` list (sizes are irrelevant
to the edges, so paths suffice). -/
def buildEdges (files : List String) : List FileEdge :=
  (files.foldl addFileEdges ⟨[], []⟩).edges

/-- One iteration of the directory-node loop at index `i`. -/
def dirNodesLoop (parts : List String) : Nat → Nat → List String → List String
  | _, 0, acc => acc
  | i, rem + 1, acc =>
    let dirPath := joinPath (parts.take (i + 1))
    dirNodesLoop parts (i + 1) rem (if dirPath ∈ acc then acc else acc ++ [dirPath])

/-- Modelled from the spec: the production Snapshot Builder's
directory-node synthesis is not under src (only its caller and the edge
test scripts are); spec §4.5 says it "synthesizes one directory node per
unique path prefix (split on the path separator) plus one file node per
leaf path, deduplicating directory nodes seen from multiple files". -/
def buildDirNodes (files : List String) : List String :=
  files.foldl (fun acc path =>
    let parts := splitPath path
    dirNodesLoop parts 0 (parts.length - 1) acc) []

/-- The source of the single parent edge a file node must receive: its
immediate containing directory, or the synthetic root `/` for a top-level
path. -/
def leafParent (p : String) : String :=
  if (splitPath p).length ≤ 1 then "/" else joinPath (splitPath p).dropLast

/-- The source of the single parent edge a directory node (prefix of length
`j ≥ 1`) must receive. -/
def dirParentName (parts : List String) (j : Nat) : String :=
  if j = 1 then "/" else joinPath (parts.take (j - 1))

/-- The parent edge of the directory node given by the first `j` components
of `parts`. -/
def dirEdge (parts : List String) (j : Nat) : FileEdge :=
  ⟨dirParentName parts j, joinPath (parts.take j)⟩

/-- The script's dedup key for the prefix of length `j` of `parts`. -/
def prefixKey (parts : List String) (j : Nat) : String :=
  dirEdgeKey (if j = 1 then "" else joinPath (parts.take (j - 1))) (joinPath (parts.take j))

/-- Well-formedness of a flat path list, as produced by the file-state
tracker: distinct paths, non-degenerate component lists, and no collisions
among the strings the builder manufactures (joined prefixes and dedup keys
determine their component lists, and no file path doubles as a directory
prefix).  All conditions are decidable and hold for ordinary repository
paths. -/
def PathsWF (files : List String) : Prop :=
  files.Nodup
  ∧ (∀ p ∈ files, ∀ i ≤ (splitPath p).length, 1 ≤ i →
      joinPath ((splitPath p).take i) ≠ "")
  ∧ (∀ p ∈ files, ∀ q ∈ files, ∀ i ≤ (splitPath p).length, ∀ j ≤ (splitPath q).length,
      joinPath ((splitPath p).take i) = joinPath ((splitPath q).take j) →
      (splitPath p).take i = (splitPath q).take j)
  ∧ (∀ p ∈ files, ∀ q ∈ files, ∀ i < (splitPath p).length, ∀ j < (splitPath q).length,
      1 ≤ i → 1 ≤ j →
      prefixKey (splitPath p) i = prefixKey (splitPath q) j →
      (splitPath p).take i = (splitPath q).take j)
  ∧ (∀ p ∈ files, ∀ q ∈ files, ∀ j < (splitPath q).length, 1 ≤ j →
      p ≠ joinPath ((splitPath q).take j))

instance (files : List String) : Decidable (PathsWF files) := by
  unfold PathsWF
  exact inferInstance

/-- Edges of `edges` whose target is `t` (proof-support definition). -/
def targetFilter (edges : List FileEdge) (t : String) : List FileEdge :=
  edges.filter (fun e => e.target = t)

/-- A component-prefix `l` has been discovered while processing the files
in `F` (proof-support definition). -/
def Discovered (F : List String) (l : List String) : Prop :=
  ∃ q ∈ F, ∃ j, 1 ≤ j ∧ j < (splitPath q).length ∧ (splitPath q).take j = l

/-- Discovery including the first `k` proper prefixes of the file currently
being processed (proof-support definition). -/
def DiscoveredUpTo (F : List String) (parts : List String) (k : Nat)
    (l : List String) : Prop :=
  Discovered F l ∨ ∃ t, 1 ≤ t ∧ t ≤ k ∧ parts.take t = l

/-- Invariant of the edge-building fold after processing the files in `F`
(of the full input `files`): the dedup set holds exactly the keys of the
discovered prefixes, each processed file has exactly its own parent edge,
unprocessed files have none, and each directory prefix has exactly its own
parent edge iff discovered. -/
def EdgeInv (files F : List String) (st : EdgeAcc) : Prop :=
  (∀ s, s ∈ st.directoriesAdded ↔
     ∃ q ∈ F, ∃ j, 1 ≤ j ∧ j < (splitPath q).length ∧ s = prefixKey (splitPath q) j)
  ∧ (∀ p ∈ files, p ∈ F → targetFilter st.edges p = [⟨leafParent p, p⟩])
  ∧ (∀ p ∈ files, p ∉ F → targetFilter st.edges p = [])
  ∧ (∀ q ∈ files, ∀ j, 1 ≤ j → j < (splitPath q).length →
       (Discovered F ((splitPath q).take j) →
         targetFilter st.edges (joinPath ((splitPath q).take j))
           = [dirEdge (splitPath q) j])
       ∧ (¬ Discovered F ((splitPath q).take j) →
         targetFilter st.edges (joinPath ((splitPath q).take j)) = []))

/-- Invariant inside the directory loop of the file `r` (whose leaf edge is
already placed), after the iterations for prefix lengths `1..k`. -/
def EdgeInvDir (files F : List String) (r : String) (k : Nat) (st : EdgeAcc) : Prop :=
  (∀ s, s ∈ st.directoriesAdded ↔
     ((∃ q ∈ F, ∃ j, 1 ≤ j ∧ j < (splitPath q).length ∧ s = prefixKey (splitPath q) j)
      ∨ ∃ t, 1 ≤ t ∧ t ≤ k ∧ s = prefixKey (splitPath r) t))
  ∧ (∀ p ∈ files, p ∈ F ++ [r] → targetFilter st.edges p = [⟨leafParent p, p⟩])
  ∧ (∀ p ∈ files, p ∉ F ++ [r] → targetFilter st.edges p = [])
  ∧ (∀ q ∈ files, ∀ j, 1 ≤ j → j < (splitPath q).length →
       (DiscoveredUpTo F (splitPath r) k ((splitPath q).take j) →
         targetFilter st.edges (joinPath ((splitPath q).take j))
           = [dirEdge (splitPath q) j])
       ∧ (¬ DiscoveredUpTo F (splitPath r) k ((splitPath q).take j) →
         targetFilter st.edges (joinPath ((splitPath q).take j)) = []))

/-- Concrete database for the C2 scenario: the repo row exists (id 1), no
PR or file rows are stored yet. -/
def c2Db : D1Database :=
  ⟨[⟨1, "o", "r", "o/r", 0, 0, 0⟩], [], [], 2, 1⟩

/-- Concrete fetched change set for the C2 scenario: one new merged PR
carrying one file diff. -/
def c2Prs : List PRWithFiles :=
  [⟨⟨5, "t", "u", some 1000⟩, [⟨"a.ts", .added, 1, 0, none⟩]⟩]

end RepoTimeline

namespace RepoTimeline

/-! ## Basic lemmas about the association-list map -/

theorem lookupEntries_setEntries_self (l : List (String × Int)) (k : String) (v : Int) :
    lookupEntries (setEntries l k v) k = some v := by
  induction l with
  | nil => simp [setEntries, lookupEntries]
  | cons e rest ih =>
    by_cases h : e.1 = k
    · simp [setEntries, lookupEntries, h]
    · simp [setEntries, lookupEntries, h, ih]

theorem lookupEntries_setEntries_ne (l : List (String × Int)) (k j : String) (v : Int)
    (h : j ≠ k) : lookupEntries (setEntries l k v) j = lookupEntries l j := by
  induction l with
  | nil =>
    simp only [setEntries, lookupEntries]
    rw [if_neg (Ne.symm h)]
  | cons e rest ih =>
    simp only [setEntries]
    by_cases he : e.1 = k
    · rw [if_pos he]
      simp only [lookupEntries]
      rw [if_neg (Ne.symm h), if_neg (fun hj => h (hj.symm.trans he))]
    · rw [if_neg he]
      simp only [lookupEntries]
      rw [ih]

theorem lookupEntries_eraseEntries_self (l : List (String × Int)) (k : String) :
    lookupEntries (eraseEntries l k) k = none := by
  induction l with
  | nil => simp [eraseEntries, lookupEntries]
  | cons e rest ih =>
    by_cases h : e.1 = k
    · simpa [eraseEntries, lookupEntries, h] using ih
    · simpa [eraseEntries, lookupEntries, h] using ih

theorem FileState.lookup_set_self (s : FileState) (k : String) (v : Int) :
    (s.set k v).lookup k = some v :=
  lookupEntries_setEntries_self s.entries k v

theorem FileState.lookup_set_ne (s : FileState) (k j : String) (v : Int) (h : j ≠ k) :
    (s.set k v).lookup j = s.lookup j :=
  lookupEntries_setEntries_ne s.entries k j v h

theorem FileState.lookup_erase_self (s : FileState) (k : String) :
    (s.erase k).lookup k = none :=
  lookupEntries_eraseEntries_self s.entries k

/-! ## Claim C3 -/

/-- C3 counterexample: the code does not clamp per update.  Applying
`{a.ts, added, +0, -5}` and then `{a.ts, modified, +3, -0}` leaves the
tracked size of `a.ts` at `-2`, not at
`max 0 (previous + additions - deletions)` — neither for the internal
tracked value (which goes negative) nor for the value reported by
`getFileData` (which stays `0` where the claimed recurrence gives `3`). -/
theorem C3_counterexample :
    let s1 := updateFromPRFiles ⟨[]⟩ [⟨"a.ts", .added, 0, 5, none⟩]
    let s2 := updateFromPRFiles s1 [⟨"a.ts", .modified, 3, 0, none⟩]
    s1.lookup "a.ts" = some (-5) ∧
    ¬ (0 ≤ s1.lookupOr0 "a.ts") ∧
    s2.lookup "a.ts" = some (-2) ∧
    s2.lookup "a.ts" ≠ some (max 0 (s1.lookupOr0 "a.ts" + 3 - 0)) ∧
    lookupEntries (getFileData s2) "a.ts" = some 0 ∧
    (0 : Int) ≠ max 0 ((lookupEntries (getFileData s1) "a.ts").getD 0 + 3 - 0) := by
  decide

/-- C3 (amended): for every diff with status `added` or `modified`,
`updateFromPRFiles` sets the internal tracked size of the diff's filename to
`previous tracked size + additions - deletions` with no clamping (a missing
entry defaults to 0), so the internal value can go negative; clamping to 0
happens only at read time, in `getFileData`, whose reported sizes are hence
never negative. -/
theorem C3_unclamped_delta_and_clamped_read :
    (∀ (s : FileState) (f : GitHubPRFile),
        f.status = .added ∨ f.status = .modified →
        (applyPRFile s f).lookup f.filename
          = some (s.lookupOr0 f.filename + (f.additions : Int) - (f.deletions : Int))) ∧
    (∀ (s : FileState) (p : String × Int), p ∈ getFileData s → 0 ≤ p.2) := by
  constructor
  · intro s f h
    rcases h with h | h <;>
      cases hp : f.previous_filename <;>
        simp [applyPRFile, h, hp, FileState.lookup_set_self]
  · intro s p hp
    simp only [getFileData, List.mem_map] at hp
    obtain ⟨e, _, rfl⟩ := hp
    exact le_max_left 0 e.2

/-- Witness for C3's amended theorem at a concrete input. -/
theorem C3_unclamped_delta_and_clamped_read_witness :
    (applyPRFile ⟨[]⟩ ⟨"a.ts", .modified, 3, 0, none⟩).lookup "a.ts"
      = some ((⟨[]⟩ : FileState).lookupOr0 "a.ts" + ((3 : Nat) : Int) - ((0 : Nat) : Int)) :=
  C3_unclamped_delta_and_clamped_read.1 ⟨[]⟩ ⟨"a.ts", .modified, 3, 0, none⟩ (Or.inr rfl)

/-! ## Claim C7 -/

/-- C7: a `renamed` diff carrying a (non-empty) `previousFilename` moves the
accumulated size from `previousFilename` to `filename`, applying the diff's
own `additions - deletions` delta on top, and deletes the old key; in
particular `{old.ts, added, +40}` followed by
`{new.ts, renamed, previousFilename: old.ts, +0, -0}` yields a snapshot
containing `new.ts` at size 40 and no entry for `old.ts`. -/
theorem C7_rename_moves_cumulative_size :
    (∀ (s : FileState) (f : GitHubPRFile) (prev : String),
        f.status = .renamed → f.previous_filename = some prev → prev ≠ "" →
        ((applyPRFile s f).lookup f.filename
            = some (s.lookupOr0 prev + (f.additions : Int) - (f.deletions : Int))
          ∧ (f.filename ≠ prev → (applyPRFile s f).lookup prev = none))) ∧
    getFileData (updateFromPRFiles ⟨[]⟩
        [⟨"old.ts", .added, 40, 0, none⟩, ⟨"new.ts", .renamed, 0, 0, some "old.ts"⟩])
      = [("new.ts", 40)] := by
  constructor
  · intro s f prev hst hprev hne
    constructor
    · simp [applyPRFile, hst, hprev, hne, FileState.lookup_set_self]
    · intro hfn
      simp only [applyPRFile, hst, hprev]
      rw [if_neg (by simp), if_neg hne,
        FileState.lookup_set_ne _ _ _ _ (Ne.symm hfn),
        FileState.lookup_erase_self]
  · decide

/-- Witness for C7 at the claim's own concrete input. -/
theorem C7_rename_moves_cumulative_size_witness :
    (applyPRFile ⟨[("old.ts", 40)]⟩ ⟨"new.ts", .renamed, 0, 0, some "old.ts"⟩).lookup "old.ts"
      = none :=
  (C7_rename_moves_cumulative_size.1 ⟨[("old.ts", 40)]⟩
      ⟨"new.ts", .renamed, 0, 0, some "old.ts"⟩ "old.ts" rfl rfl (by decide)).2 (by decide)

/-! ## Claims C4 and C9 (client cache store) -/

namespace IndexedDBService

theorem findEnvelope_putEnvelope_self (store : Store) (d : CachedRepoData) :
    findEnvelope (putEnvelope store d) d.repoKey = some d := by
  induction store with
  | nil => simp [putEnvelope, findEnvelope]
  | cons e rest ih =>
    by_cases h : e.repoKey = d.repoKey
    · simp [putEnvelope, findEnvelope, h]
    · simp only [putEnvelope]
      rw [if_neg h]
      simpa [findEnvelope, h] using ih

theorem findEnvelope_deleteEnvelope_self (store : Store) (repoKey : String) :
    findEnvelope (deleteEnvelope store repoKey) repoKey = none := by
  induction store with
  | nil => simp [deleteEnvelope, findEnvelope]
  | cons e rest ih =>
    by_cases h : e.repoKey = repoKey <;>
      simp [deleteEnvelope, findEnvelope, h, ih]

theorem rematerialize_dates (commits : List CommitData) :
    commits.map (fun c => { c with date := c.date }) = commits := by
  have h : (fun (c : CommitData) => { c with date := c.date }) = id := rfl
  rw [h, List.map_id]

/-- C4: `saveCommits` followed by `loadCommits` (within the expiry window)
returns the saved records with their timestamps intact; `loadCommits`
returns `none` when the envelope is absent, when its version differs from
`CACHE_VERSION`, or when it is more than 24 hours old — and in the latter
two cases the envelope is deleted, so a subsequent `loadCommits` also
returns `none`. -/
theorem C4_cache_roundtrip_and_invalidation :
    (∀ (store : Store) (repoKey : String) (commits : List CommitData) (now now2 : Nat),
        now2 - now ≤ CACHE_EXPIRY_MS →
        loadCommits (saveCommits store repoKey commits now) repoKey now2
          = (some commits, saveCommits store repoKey commits now)) ∧
    (∀ (store : Store) (repoKey : String) (now : Nat),
        findEnvelope store repoKey = none →
        loadCommits store repoKey now = (none, store)) ∧
    (∀ (store : Store) (repoKey : String) (now : Nat) (d : CachedRepoData),
        findEnvelope store repoKey = some d →
        (d.version ≠ CACHE_VERSION ∨ CACHE_EXPIRY_MS < now - d.lastUpdated) →
        loadCommits store repoKey now = (none, deleteEnvelope store repoKey)
          ∧ findEnvelope (deleteEnvelope store repoKey) repoKey = none
          ∧ loadCommits (deleteEnvelope store repoKey) repoKey now
              = (none, deleteEnvelope store repoKey)) := by
  refine ⟨?_, ?_, ?_⟩
  · intro store repoKey commits now now2 h
    have hfind := findEnvelope_putEnvelope_self store ⟨repoKey, commits, now, CACHE_VERSION⟩
    simp only [loadCommits, saveCommits, hfind]
    simp [Nat.not_lt.mpr h, rematerialize_dates]
  · intro store repoKey now h
    simp [loadCommits, h]
  · intro store repoKey now d hfind hbad
    have hdel : findEnvelope (deleteEnvelope store repoKey) repoKey = none :=
      findEnvelope_deleteEnvelope_self store repoKey
    have hload : loadCommits store repoKey now = (none, deleteEnvelope store repoKey) := by
      rcases hbad with hv | hexp
      · simp [loadCommits, hfind, hv]
      · by_cases hv : d.version = CACHE_VERSION
        · simp [loadCommits, hfind, hv, hexp]
        · simp [loadCommits, hfind, hv]
    exact ⟨hload, hdel, by simp [loadCommits, hdel]⟩

/-- Witness for C4 at concrete inputs. -/
theorem C4_cache_roundtrip_and_invalidation_witness :
    loadCommits (saveCommits [] "o/r" [⟨"s", "m", "a", 7, []⟩] 0) "o/r" 0
      = (some [⟨"s", "m", "a", 7, []⟩], saveCommits [] "o/r" [⟨"s", "m", "a", 7, []⟩] 0) :=
  C4_cache_roundtrip_and_invalidation.1 [] "o/r" [⟨"s", "m", "a", 7, []⟩] 0 0 (by decide)

/-- C9: `getCacheInfo` reports `exists = true` with age and commit count
for any stored envelope, applying none of the validity checks `loadCommits`
applies; so for a version-mismatched or expired envelope `exists = true`
holds while `loadCommits` returns `none`. -/
theorem C9_getCacheInfo_skips_validity_checks :
    (∀ (store : Store) (repoKey : String) (now : Nat) (d : CachedRepoData),
        findEnvelope store repoKey = some d →
        getCacheInfo store repoKey now
          = ⟨true, some (now - d.lastUpdated), some d.commits.length⟩) ∧
    (∀ (store : Store) (repoKey : String) (now : Nat) (d : CachedRepoData),
        findEnvelope store repoKey = some d →
        (d.version ≠ CACHE_VERSION ∨ CACHE_EXPIRY_MS < now - d.lastUpdated) →
        (getCacheInfo store repoKey now).existsFlag = true
          ∧ (loadCommits store repoKey now).1 = none) := by
  constructor
  · intro store repoKey now d hfind
    simp [getCacheInfo, hfind]
  · intro store repoKey now d hfind hbad
    refine ⟨by simp [getCacheInfo, hfind], ?_⟩
    rcases hbad with hv | hexp
    · simp [loadCommits, hfind, hv]
    · by_cases hv : d.version = CACHE_VERSION
      · simp [loadCommits, hfind, hv, hexp]
      · simp [loadCommits, hfind, hv]

/-- Witness for C9: a stored envelope with stale version 1. -/
theorem C9_getCacheInfo_skips_validity_checks_witness :
    (getCacheInfo [⟨"o/r", [], 0, 1⟩] "o/r" 5).existsFlag = true
      ∧ (loadCommits [⟨"o/r", [], 0, 1⟩] "o/r" 5).1 = none :=
  C9_getCacheInfo_skips_validity_checks.2 [⟨"o/r", [], 0, 1⟩] "o/r" 5 ⟨"o/r", [], 0, 1⟩
    rfl (Or.inl (by decide))

end IndexedDBService

/-! ## Claim C5 (orchestrator cache fallback) -/

/-- C5: a fetch error during the incremental loading path with a
pre-existing cache envelope ends in the ready state (`loading = false`,
`error = none`) with `fromCache = true` and the stale-fallback marker
(`rateLimitedCache = true`) set, the commits replaced by the cached ones;
the error state is reached only when the cache fallback itself also fails
(surfacing the original message) or when no cache existed. -/
theorem C5_incremental_error_cache_fallback :
    (∀ (st0 : OrchState) (blocking : FetchOutcome) (incDelivered : List CommitData)
        (m : String) (cached : List CommitData),
        (loadCommitsOrch st0 true true blocking incDelivered (.err m) (.ok cached)).isReady
        ∧ (loadCommitsOrch st0 true true blocking incDelivered (.err m) (.ok cached)).fromCache
            = true
        ∧ (loadCommitsOrch st0 true true blocking incDelivered (.err m) (.ok cached)).rateLimitedCache
            = true
        ∧ (loadCommitsOrch st0 true true blocking incDelivered (.err m) (.ok cached)).commits
            = cached
        ∧ (loadCommitsOrch st0 true true blocking incDelivered (.err m) (.ok cached)).backgroundLoading
            = false) ∧
    (∀ (st0 : OrchState) (blocking : FetchOutcome) (incDelivered : List CommitData)
        (m m2 : String),
        (loadCommitsOrch st0 true true blocking incDelivered (.err m) (.err m2)).error
          = some m) ∧
    (∀ (st0 : OrchState) (forceRefresh : Bool) (blocking fallback : FetchOutcome)
        (incDelivered : List CommitData) (m : String),
        (loadCommitsOrch st0 false forceRefresh blocking incDelivered (.err m) fallback).error
          = some m) := by
  refine ⟨?_, ?_, ?_⟩
  · intro st0 blocking incDelivered m cached
    simp [loadCommitsOrch, OrchState.isReady]
  · intro st0 blocking incDelivered m m2
    simp [loadCommitsOrch]
  · intro st0 forceRefresh blocking fallback incDelivered m
    simp [loadCommitsOrch]

/-! ## Claim C1 (oldest-page quirk correction) -/

/-- C1: when the reported last page comes back empty, `fetchOldestCommits`
recomputes the true last page as `ceil(probedCount / 100)` and retries
exactly once (the requested 100-per-page listing pages are exactly
`[lastPage]` or `[lastPage, recomputed]`); if the recomputed page equals the
reported one or is also empty, the result is the empty list (not an error);
and when the probe count is accurate and the recomputed page is non-empty,
the result is the chronologically oldest at-most-`maxCommitsToReturn` items
in ascending order (a prefix of the reversed newest-first upstream
listing). -/
theorem C1_oldest_page_quirk_correction
    (commits : List Int) (lastPage probedCount maxReturn : Nat)
    (hempty : pageSlice commits 100 lastPage = []) :
    ((fetchOldestCommits commits (some lastPage) probedCount maxReturn).2
        = if (probedCount + 99) / 100 = lastPage then [lastPage]
          else [lastPage, (probedCount + 99) / 100]) ∧
    (((probedCount + 99) / 100 = lastPage
        ∨ pageSlice commits 100 ((probedCount + 99) / 100) = []) →
      (fetchOldestCommits commits (some lastPage) probedCount maxReturn).1 = []) ∧
    (probedCount = commits.length →
      pageSlice commits 100 ((probedCount + 99) / 100) ≠ [] →
      (fetchOldestCommits commits (some lastPage) probedCount maxReturn).1
          = commits.reverse.take
              (min maxReturn (commits.length - ((probedCount + 99) / 100 - 1) * 100))
        ∧ (commits.Sorted (· ≥ ·) →
            (fetchOldestCommits commits (some lastPage) probedCount maxReturn).1.Sorted
              (· ≤ ·))) := by
  by_cases hAL : (probedCount + 99) / 100 = lastPage
  · have hres : fetchOldestCommits commits (some lastPage) probedCount maxReturn
        = ([], [lastPage]) := by
      simp [fetchOldestCommits, hempty, hAL]
    refine ⟨by simp [hres, hAL], by simp [hres], ?_⟩
    intro _ hne
    exact absurd (hAL ▸ hempty) hne
  · by_cases hc2 : pageSlice commits 100 ((probedCount + 99) / 100) = []
    · have hres : fetchOldestCommits commits (some lastPage) probedCount maxReturn
          = ([], [lastPage, (probedCount + 99) / 100]) := by
        simp [fetchOldestCommits, hempty, hAL, hc2]
      refine ⟨by simp [hres, hAL], by simp [hres], ?_⟩
      intro _ hne
      exact absurd hc2 hne
    · have hres : fetchOldestCommits commits (some lastPage) probedCount maxReturn
          = ((pageSlice commits 100 ((probedCount + 99) / 100)).reverse.take maxReturn,
             [lastPage, (probedCount + 99) / 100]) := by
        simp [fetchOldestCommits, hempty, hAL, hc2]
      refine ⟨by simp [hres, hAL], ?_, ?_⟩
      · intro hdisj
        rcases hdisj with h | h
        · exact absurd h hAL
        · exact absurd h hc2
      · intro hp hne
        have h100 : 0 < 100 := by norm_num
        have hne0 : commits ≠ [] := by
          intro h0
          exact hc2 (by simp [pageSlice, h0])
        have hlenpos : 1 ≤ commits.length := by
          have := List.length_pos.mpr hne0
          omega
        have hAsucc : (commits.length + 99) / 100 = (commits.length - 1) / 100 + 1 := by
          have hn : commits.length - 1 + 100 = commits.length + 99 := by omega
          rw [← hn, Nat.add_div_right _ h100]
        have hmod : (commits.length - 1) % 100 < 100 := Nat.mod_lt _ h100
        have hdm : 100 * ((commits.length - 1) / 100) + (commits.length - 1) % 100
            = commits.length - 1 := Nat.div_add_mod (commits.length - 1) 100
        have hbound : commits.length - ((commits.length + 99) / 100 - 1) * 100 ≤ 100 := by
          rw [hAsucc]
          omega
        have hslice : pageSlice commits 100 ((commits.length + 99) / 100)
            = commits.drop (((commits.length + 99) / 100 - 1) * 100) := by
          unfold pageSlice
          apply List.take_of_length_le
          rw [List.length_drop]
          exact hbound
        subst hp
        have hmain : (fetchOldestCommits commits (some lastPage) commits.length maxReturn).1
            = commits.reverse.take
                (min maxReturn
                  (commits.length - ((commits.length + 99) / 100 - 1) * 100)) := by
          rw [hres]
          simp only [hslice, List.reverse_drop, List.take_take]
        refine ⟨hmain, ?_⟩
        intro hsorted
        rw [hmain]
        have hrevsorted : commits.reverse.Sorted (· ≤ ·) := by
          rw [List.Sorted, List.pairwise_reverse]
          exact hsorted
        exact List.Pairwise.sublist (List.take_sublist _ _) hrevsorted

/-- Witness for C1: a 5-commit repository (newest-first timestamps
`[50, 40, 30, 20, 10]`) whose Link header misreports the last page as 7;
the probe count 5 recomputes page 1 and the result is the 3 oldest commits
ascending. -/
theorem C1_oldest_page_quirk_correction_witness :
    pageSlice ([50, 40, 30, 20, 10] : List Int) 100 7 = [] ∧
    (fetchOldestCommits ([50, 40, 30, 20, 10] : List Int) (some 7) 5 3).1
      = ([50, 40, 30, 20, 10] : List Int).reverse.take
          (min 3 (([50, 40, 30, 20, 10] : List Int).length - ((5 + 99) / 100 - 1) * 100)) :=
  ⟨by decide,
   ((C1_oldest_page_quirk_correction [50, 40, 30, 20, 10] 7 5 3 (by decide)).2.2
      (by decide) (by decide)).1⟩

/-! ## Claim C8 (pagination bounds of the change-list fetch) -/

theorem unmergedFullPages_isEmpty (page : Nat) :
    (unmergedFullPages page).isEmpty = false := rfl

theorem unmergedFullPages_length (page : Nat) :
    (unmergedFullPages page).length = 100 := rfl

theorem unmergedFullPages_no_merged (page : Nat) :
    (unmergedFullPages page).filter (fun pr => pr.merged_at.isSome) = [] := rfl

theorem ghFetchMergedPRsGo_reqs_le (pages : Nat → List PullRequestMeta)
    (fileFetch : Nat → Option (List GitHubPRFile)) (sinceNumber : Option Nat) :
    ∀ (fuel page : Nat) (acc : List PRWithFiles) (reqs : List Nat),
      (ghFetchMergedPRsGo pages fileFetch sinceNumber fuel page acc reqs).2.length
        ≤ reqs.length + fuel := by
  intro fuel
  induction fuel with
  | zero =>
    intro page acc reqs
    simp [ghFetchMergedPRsGo]
  | succ fuel ih =>
    intro page acc reqs
    simp only [ghFetchMergedPRsGo]
    split
    · simp
    · split <;>
        · split
          · simp only [List.length_append, List.length_singleton]
            omega
          · split
            · simp only [List.length_append, List.length_singleton]
              omega
            · refine le_trans (ih (page + 1) _ (reqs ++ [page])) ?_
              simp only [List.length_append, List.length_singleton]
              omega

theorem workerFetchMergedPRsGo_unmerged_none :
    ∀ (fuel page : Nat) (acc : List PRWithFiles),
      workerFetchMergedPRsGo unmergedFullPages (fun _ => none) none fuel page acc = none := by
  intro fuel
  induction fuel with
  | zero =>
    intro page acc
    rfl
  | succ fuel ih =>
    intro page acc
    simp only [workerFetchMergedPRsGo]
    rw [unmergedFullPages_isEmpty, unmergedFullPages_no_merged, unmergedFullPages_length]
    simp [ih]

/-- C8 counterexample: the worker-inline `fetchMergedPRs` used by the sync
cycle has no page-count ceiling.  Against an upstream that keeps returning
full pages of closed-but-unmerged PRs it has made 11 page requests — more
than the github-module's configured ceiling of 10 — and is still looping
(`none` = fuel exhausted with the `while (true)` loop still running),
whereas the github-module variant stops after exactly its `maxPages = 10`
page requests on the same upstream. -/
theorem C8_counterexample :
    workerFetchMergedPRs unmergedFullPages (fun _ => none) none 11 = none ∧
    (ghFetchMergedPRs unmergedFullPages (fun _ => none) none 10).2
      = [1, 2, 3, 4, 5, 6, 7, 8, 9, 10] := by
  constructor
  · exact workerFetchMergedPRsGo_unmerged_none 11 1 []
  · rfl

/-- C8 (amended): the github-module `fetchMergedPRs` stops paging at a
short page, at the 45-PR accumulation limit, or at the `maxPages` ceiling,
so one call makes at most `maxPages` page requests regardless of upstream
behavior; the worker-inline copy lacks the ceiling and pages until an empty
or short page, so its page-request count is bounded only by the upstream
history (for an upstream that always returns full pages it never stops). -/
theorem C8_page_ceiling_only_in_github_module :
    (∀ (pages : Nat → List PullRequestMeta) (fileFetch : Nat → Option (List GitHubPRFile))
        (sinceNumber : Option Nat) (maxPages : Nat),
        (ghFetchMergedPRs pages fileFetch sinceNumber maxPages).2.length ≤ maxPages) ∧
    (∀ fuel : Nat,
        workerFetchMergedPRs unmergedFullPages (fun _ => none) none fuel = none) := by
  constructor
  · intro pages fileFetch sinceNumber maxPages
    simpa [ghFetchMergedPRs] using
      ghFetchMergedPRsGo_reqs_le pages fileFetch sinceNumber maxPages 1 [] []
  · intro fuel
    exact workerFetchMergedPRsGo_unmerged_none fuel 1 []

/-! ## Claim C2 (storeRepoData batching) -/

/-- C2: evaluating `storeRepoData` at the failing input.  The repo row for
`o/r` exists (id 1), PR #5 is new and carries one file diff; after the
store, the `pull_requests` table contains the PR row but `pr_files` is
empty — the pre-batch `SELECT id FROM pull_requests` found no row for the
still-unexecuted PR insert, so the file inserts were never queued. -/
theorem C2_new_pr_row_stored_without_its_files :
    c2Prs.map (fun p => p.files.length) = [1] ∧
    (storeRepoData c2Db "o" "r" c2Prs false 99).map
        (fun db => (db.pull_requests.map (fun p => (p.repo_id, p.pr_number)), db.pr_files.length))
      = some ([(1, 5)], 0) := by
  constructor
  · rfl
  · rfl

/-! ## Claim C10 (empty-history repositories are permanent cache misses) -/

/-- C10: a repo row with zero stored PR rows makes `getCachedData` return
`none`; a sync cycle that finds zero merged items stores nothing at all
(`fetchAndCacheRepo` returns the empty list and the unchanged database);
hence every request for such a repository takes the synchronous full-sync
MISS path and leaves the database — in particular its sync-state
timestamps — unchanged, forever. -/
theorem C10_empty_history_is_permanent_cache_miss :
    (∀ (db : D1Database) (fullName : String) (r : RepoRow),
        db.repos.find? (fun x => x.full_name = fullName) = some r →
        db.pull_requests.filter (fun p => p.repo_id == r.id) = [] →
        getCachedData db fullName = none) ∧
    (∀ (db : D1Database) (owner repo : String) (pages : Nat → List PullRequestMeta)
        (fileFetch : Nat → Option (List GitHubPRFile)) (fuel now pagecount : Nat),
        workerFetchMergedPRs pages fileFetch none fuel = some ([], pagecount) →
        fetchAndCacheRepo db owner repo pages fileFetch fuel now = some ([], db)) ∧
    (∀ (db : D1Database) (owner repo : String) (pages : Nat → List PullRequestMeta)
        (fileFetch : Nat → Option (List GitHubPRFile)) (fuel now pagecount : Nat),
        getCachedData db (owner ++ "/" ++ repo) = none →
        workerFetchMergedPRs pages fileFetch none fuel = some ([], pagecount) →
        handleRepoRequest db owner repo pages fileFetch fuel now
            = ⟨some [], false, false, db⟩
          ∧ ∀ n : Nat,
              (fun d => (handleRepoRequest d owner repo pages fileFetch fuel now).db)^[n] db
                = db) := by
  refine ⟨?_, ?_, ?_⟩
  · intro db fullName r hfind hfilter
    simp [getCachedData, hfind, hfilter, sortByMergedAt]
  · intro db owner repo pages fileFetch fuel now pagecount hfetch
    simp [fetchAndCacheRepo, hfetch]
  · intro db owner repo pages fileFetch fuel now pagecount hcached hfetch
    have hstep : handleRepoRequest db owner repo pages fileFetch fuel now
        = ⟨some [], false, false, db⟩ := by
      simp [handleRepoRequest, hcached, fetchAndCacheRepo, hfetch]
    refine ⟨hstep, ?_⟩
    intro n
    induction n with
    | zero => rfl
    | succ n ih =>
      rw [Function.iterate_succ_apply, hstep]
      exact ih

/-- Witness for C10: repo `o/r` has a repo row (id 1) but zero PR rows, and
the upstream has no PRs at all. -/
theorem C10_empty_history_is_permanent_cache_miss_witness :
    handleRepoRequest ⟨[⟨1, "o", "r", "o/r", 0, 0, 0⟩], [], [], 2, 1⟩ "o" "r"
        (fun _ => []) (fun _ => none) 1 0
      = ⟨some [], false, false, ⟨[⟨1, "o", "r", "o/r", 0, 0, 0⟩], [], [], 2, 1⟩⟩ :=
  ((C10_empty_history_is_permanent_cache_miss.2.2
      ⟨[⟨1, "o", "r", "o/r", 0, 0, 0⟩], [], [], 2, 1⟩ "o" "r"
      (fun _ => []) (fun _ => none) 1 0 1 (by decide) (by decide))).1

/-! ## Claim C6: supporting lemmas -/

theorem splitOnSlashAux_ne_nil (l : List Char) (cur : List Char) :
    splitOnSlashAux l cur ≠ [] := by
  induction l generalizing cur with
  | nil => simp [splitOnSlashAux]
  | cons c rest ih =>
    by_cases h : c = '/'
    · simp [splitOnSlashAux, h]
    · simpa [splitOnSlashAux, h] using ih (c :: cur)

theorem splitPath_ne_nil (p : String) : splitPath p ≠ [] :=
  splitOnSlashAux_ne_nil p.data []

theorem splitPath_length_pos (p : String) : 1 ≤ (splitPath p).length := by
  have h := List.length_pos.mpr (splitPath_ne_nil p)
  omega

theorem targetFilter_append (l1 l2 : List FileEdge) (t : String) :
    targetFilter (l1 ++ l2) t = targetFilter l1 t ++ targetFilter l2 t := by
  simp [targetFilter, List.filter_append]

theorem targetFilter_single_eq (e : FileEdge) (t : String) (h : e.target = t) :
    targetFilter [e] t = [e] := by
  simp [targetFilter, h]

theorem targetFilter_single_ne (e : FileEdge) (t : String) (h : e.target ≠ t) :
    targetFilter [e] t = [] := by
  simp [targetFilter, h]

theorem take_prefix_lengths {α : Type} {l1 l2 : List α} {i j : Nat}
    (hi : i ≤ l1.length) (hj : j ≤ l2.length) (h : l1.take i = l2.take j) :
    i = j := by
  have hlen := congrArg List.length h
  simp only [List.length_take] at hlen
  omega

theorem take_pred_of_take_eq {α : Type} {l1 l2 : List α} {i j : Nat}
    (h : l1.take i = l2.take j) (k : Nat) (hk : k ≤ i) (hkj : k ≤ j) :
    l1.take k = l2.take k := by
  have e1 : (l1.take i).take k = l1.take k := by
    rw [List.take_take, inf_eq_left.mpr hk]
  have e2 : (l2.take j).take k = l2.take k := by
    rw [List.take_take, inf_eq_left.mpr hkj]
  rw [← e1, ← e2, h]

theorem prefixKey_congr {l1 l2 : List String} {i j : Nat}
    (hi : i ≤ l1.length) (hj : j ≤ l2.length) (h1 : 1 ≤ i)
    (hpre : l1.take i = l2.take j) : prefixKey l1 i = prefixKey l2 j := by
  have hij : i = j := take_prefix_lengths hi hj hpre
  subst hij
  have hpred : l1.take (i - 1) = l2.take (i - 1) :=
    take_pred_of_take_eq hpre (i - 1) (by omega) (by omega)
  unfold prefixKey
  rw [hpre, hpred]

theorem dirEdge_congr {l1 l2 : List String} {i j : Nat}
    (hi : i ≤ l1.length) (hj : j ≤ l2.length) (h1 : 1 ≤ i)
    (hpre : l1.take i = l2.take j) : dirEdge l1 i = dirEdge l2 j := by
  have hij : i = j := take_prefix_lengths hi hj hpre
  subst hij
  have hpred : l1.take (i - 1) = l2.take (i - 1) :=
    take_pred_of_take_eq hpre (i - 1) (by omega) (by omega)
  unfold dirEdge dirParentName
  rw [hpre, hpred]

theorem discovered_append_top {F : List String} {r : String} {l : List String}
    (hr : (splitPath r).length ≤ 1) :
    Discovered (F ++ [r]) l ↔ Discovered F l := by
  unfold Discovered
  constructor
  · rintro ⟨q, hq, j, h1, h2, h3⟩
    rcases List.mem_append.mp hq with hq | hq
    · exact ⟨q, hq, j, h1, h2, h3⟩
    · rw [List.mem_singleton] at hq
      subst hq
      omega
  · rintro ⟨q, hq, j, h1, h2, h3⟩
    exact ⟨q, List.mem_append.mpr (Or.inl hq), j, h1, h2, h3⟩

theorem discoveredUpTo_zero {F : List String} {parts : List String} {l : List String} :
    DiscoveredUpTo F parts 0 l ↔ Discovered F l := by
  unfold DiscoveredUpTo
  constructor
  · rintro (h | ⟨t, h1, h2, _⟩)
    · exact h
    · omega
  · exact Or.inl

theorem discovered_append_eq_upTo {F : List String} {r : String} {l : List String} :
    Discovered (F ++ [r]) l
      ↔ DiscoveredUpTo F (splitPath r) ((splitPath r).length - 1) l := by
  have hpos := splitPath_length_pos r
  unfold DiscoveredUpTo Discovered
  constructor
  · rintro ⟨q, hq, j, h1, h2, h3⟩
    rcases List.mem_append.mp hq with hq | hq
    · exact Or.inl ⟨q, hq, j, h1, h2, h3⟩
    · rw [List.mem_singleton] at hq
      subst hq
      exact Or.inr ⟨j, h1, by omega, h3⟩
  · rintro (⟨q, hq, j, h1, h2, h3⟩ | ⟨t, h1, h2, h3⟩)
    · exact ⟨q, List.mem_append.mpr (Or.inl hq), j, h1, h2, h3⟩
    · exact ⟨r, List.mem_append.mpr (Or.inr (List.mem_singleton.mpr rfl)), t, h1,
        by omega, h3⟩

theorem dirStep_eq (parts : List String) (st : EdgeAcc) (i : Nat)
    (hjoin : 0 < i → joinPath (parts.take i) ≠ "") :
    dirStep parts st i =
      if prefixKey parts (i + 1) ∈ st.directoriesAdded then st
      else { edges := st.edges ++ [dirEdge parts (i + 1)],
             directoriesAdded := st.directoriesAdded ++ [prefixKey parts (i + 1)] } := by
  unfold dirStep prefixKey dirEdge dirParentName dirEdgeKey
  rcases Nat.eq_zero_or_pos i with hi | hi
  · subst hi
    simp
  · have hne := hjoin hi
    have h0 : 0 < i := hi
    have h1 : ¬ (i + 1 = 1) := by omega
    simp only [if_pos h0, if_neg h1, Nat.add_sub_cancel, if_neg hne]

theorem dirLoop_inv (files F : List String) (r : String)
    (hwf : PathsWF files) (hr : r ∈ files) (hFsub : ∀ x ∈ F, x ∈ files) :
    ∀ (rem i : Nat) (st : EdgeAcc), i + rem = (splitPath r).length - 1 →
      EdgeInvDir files F r i st →
      EdgeInvDir files F r ((splitPath r).length - 1)
        (dirLoop (splitPath r) i rem st) := by
  obtain ⟨hnodup, hjoin_ne, hjoin_inj, hkey_inj, hfile_dir⟩ := hwf
  have hpos := splitPath_length_pos r
  intro rem
  induction rem with
  | zero =>
    intro i st hsum hinv
    simp only [dirLoop]
    have hieq : i = (splitPath r).length - 1 := by omega
    exact hieq ▸ hinv
  | succ rem ih =>
    intro i st hsum hinv
    simp only [dirLoop]
    apply ih (i + 1) _ (by omega)
    have hi1n : i + 1 < (splitPath r).length := by omega
    rw [dirStep_eq (splitPath r) st i
      (fun h0 => hjoin_ne r hr i (by omega) h0)]
    obtain ⟨hkeys, hleafIn, hleafOut, hdirs⟩ := hinv
    by_cases hmem : prefixKey (splitPath r) (i + 1) ∈ st.directoriesAdded
    · rw [if_pos hmem]
      refine ⟨?_, hleafIn, hleafOut, ?_⟩
      · intro s
        rw [hkeys s]
        constructor
        · rintro (h | ⟨t, h1, h2, h3⟩)
          · exact Or.inl h
          · exact Or.inr ⟨t, h1, by omega, h3⟩
        · rintro (h | ⟨t, h1, h2, h3⟩)
          · exact Or.inl h
          · by_cases ht : t ≤ i
            · exact Or.inr ⟨t, h1, ht, h3⟩
            · have htt : t = i + 1 := by omega
              subst htt
              exact (hkeys s).mp (h3 ▸ hmem)
      · intro q hq j hj1 hj2
        have hold := hdirs q hq j hj1 hj2
        constructor
        · intro hdisc
          rcases hdisc with hD | ⟨t, ht1, ht2, ht3⟩
          · exact hold.1 (Or.inl hD)
          · by_cases ht : t ≤ i
            · exact hold.1 (Or.inr ⟨t, ht1, ht, ht3⟩)
            · have htt : t = i + 1 := by omega
              subst htt
              have hkmem := (hkeys _).mp hmem
              rcases hkmem with ⟨q0, hq0, j0, hj01, hj02, hj03⟩ | ⟨t0, ht01, ht02, ht03⟩
              · have hpre : (splitPath q0).take j0 = (splitPath r).take (i + 1) :=
                  hkey_inj q0 (hFsub q0 hq0) r hr j0 hj02 (i + 1) hi1n hj01 (by omega)
                    hj03.symm
                exact hold.1 (Or.inl ⟨q0, hq0, j0, hj01, hj02, by rw [hpre, ht3]⟩)
              · have hpre : (splitPath r).take t0 = (splitPath r).take (i + 1) :=
                  hkey_inj r hr r hr t0 (by omega) (i + 1) hi1n ht01 (by omega) ht03.symm
                exact hold.1 (Or.inr ⟨t0, ht01, ht02, by rw [hpre, ht3]⟩)
        · intro hnot
          apply hold.2
          intro hdisc
          apply hnot
          rcases hdisc with hD | ⟨t, ht1, ht2, ht3⟩
          · exact Or.inl hD
          · exact Or.inr ⟨t, ht1, by omega, ht3⟩
    · rw [if_neg hmem]
      have hnotdisc : ¬ DiscoveredUpTo F (splitPath r) i ((splitPath r).take (i + 1)) := by
        intro hdisc
        apply hmem
        rw [hkeys]
        rcases hdisc with ⟨q0, hq0, j0, hj01, hj02, hj03⟩ | ⟨t0, ht01, ht02, ht03⟩
        · refine Or.inl ⟨q0, hq0, j0, hj01, hj02, ?_⟩
          exact (prefixKey_congr (le_of_lt hj02) (le_of_lt hi1n) hj01 hj03).symm
        · have hlen0 := take_prefix_lengths
            (show t0 ≤ (splitPath r).length by omega)
            (show i + 1 ≤ (splitPath r).length by omega) ht03
          omega
      refine ⟨?_, ?_, ?_, ?_⟩
      · intro s
        constructor
        · intro h
          rcases List.mem_append.mp h with h | h
          · rcases (hkeys s).mp h with h | ⟨t, h1, h2, h3⟩
            · exact Or.inl h
            · exact Or.inr ⟨t, h1, by omega, h3⟩
          · rw [List.mem_singleton] at h
            exact Or.inr ⟨i + 1, by omega, le_refl _, h⟩
        · rintro (h | ⟨t, h1, h2, h3⟩)
          · exact List.mem_append.mpr (Or.inl ((hkeys s).mpr (Or.inl h)))
          · by_cases ht : t ≤ i
            · exact List.mem_append.mpr (Or.inl ((hkeys s).mpr (Or.inr ⟨t, h1, ht, h3⟩)))
            · have htt : t = i + 1 := by omega
              subst htt
              exact List.mem_append.mpr (Or.inr (List.mem_singleton.mpr h3))
      · intro p hp hpF
        rw [targetFilter_append, hleafIn p hp hpF, targetFilter_single_ne _ _
          (fun hc => hfile_dir p hp r hr (i + 1) hi1n (by omega) hc.symm),
          List.append_nil]
      · intro p hp hpF
        rw [targetFilter_append, hleafOut p hp hpF, targetFilter_single_ne _ _
          (fun hc => hfile_dir p hp r hr (i + 1) hi1n (by omega) hc.symm),
          List.append_nil]
      · intro q hq j hj1 hj2
        by_cases heq : (splitPath q).take j = (splitPath r).take (i + 1)
        · constructor
          · intro _
            have hfilter_old :
                targetFilter st.edges (joinPath ((splitPath q).take j)) = [] := by
              apply (hdirs q hq j hj1 hj2).2
              intro hdisc
              apply hnotdisc
              rcases hdisc with hD | ⟨t, h1, h2, h3⟩
              · exact Or.inl (heq ▸ hD)
              · exact Or.inr ⟨t, h1, h2, h3.trans heq⟩
            rw [targetFilter_append, hfilter_old, List.nil_append,
              targetFilter_single_eq _ _ (congrArg joinPath heq.symm)]
            have hde := (dirEdge_congr (le_of_lt hj2) (le_of_lt hi1n) hj1 heq).symm
            rw [hde]
          · intro hnot
            exact absurd (Or.inr ⟨i + 1, by omega, le_refl _, heq.symm⟩) hnot
        · have hne_target :
              (dirEdge (splitPath r) (i + 1)).target ≠ joinPath ((splitPath q).take j) := by
            intro hc
            apply heq
            exact (hjoin_inj r hr q hq (i + 1) (le_of_lt hi1n) j (le_of_lt hj2) hc).symm
          have hupto : DiscoveredUpTo F (splitPath r) (i + 1) ((splitPath q).take j)
              ↔ DiscoveredUpTo F (splitPath r) i ((splitPath q).take j) := by
            constructor
            · rintro (hD | ⟨t, h1, h2, h3⟩)
              · exact Or.inl hD
              · by_cases ht : t ≤ i
                · exact Or.inr ⟨t, h1, ht, h3⟩
                · have htt : t = i + 1 := by omega
                  subst htt
                  exact absurd h3.symm heq
            · rintro (hD | ⟨t, h1, h2, h3⟩)
              · exact Or.inl hD
              · exact Or.inr ⟨t, h1, by omega, h3⟩
          constructor
          · intro hdisc
            rw [targetFilter_append, (hdirs q hq j hj1 hj2).1 (hupto.mp hdisc),
              targetFilter_single_ne _ _ hne_target, List.append_nil]
          · intro hnot
            rw [targetFilter_append,
              (hdirs q hq j hj1 hj2).2 (fun h => hnot (hupto.mpr h)),
              targetFilter_single_ne _ _ hne_target, List.append_nil]

theorem edgeInvDir_final (files F : List String) (r : String)
    (hlen : 1 < (splitPath r).length) (st : EdgeAcc)
    (hinv : EdgeInvDir files F r ((splitPath r).length - 1) st) :
    EdgeInv files (F ++ [r]) st := by
  obtain ⟨hkeys, hleafIn, hleafOut, hdirs⟩ := hinv
  refine ⟨?_, hleafIn, hleafOut, ?_⟩
  · intro s
    rw [hkeys s]
    constructor
    · rintro (⟨q, hq, j, h1, h2, h3⟩ | ⟨t, h1, h2, h3⟩)
      · exact ⟨q, List.mem_append.mpr (Or.inl hq), j, h1, h2, h3⟩
      · exact ⟨r, List.mem_append.mpr (Or.inr (List.mem_singleton.mpr rfl)), t, h1,
          by omega, h3⟩
    · rintro ⟨q, hq, j, h1, h2, h3⟩
      rcases List.mem_append.mp hq with hq | hq
      · exact Or.inl ⟨q, hq, j, h1, h2, h3⟩
      · rw [List.mem_singleton] at hq
        subst hq
        exact Or.inr ⟨j, h1, by omega, h3⟩
  · intro q hq j hj1 hj2
    have hold := hdirs q hq j hj1 hj2
    constructor
    · intro hdisc
      exact hold.1 (discovered_append_eq_upTo.mp hdisc)
    · intro hnot
      exact hold.2 (fun h => hnot (discovered_append_eq_upTo.mpr h))

theorem edgeInvDir_start (files F : List String) (r : String)
    (hwf : PathsWF files) (hr : r ∈ files) (hrF : r ∉ F)
    (hlen : 1 < (splitPath r).length) (st : EdgeAcc) (hinv : EdgeInv files F st) :
    EdgeInvDir files F r 0
      ⟨st.edges ++ [⟨joinPath (splitPath r).dropLast, r⟩], st.directoriesAdded⟩ := by
  obtain ⟨hnodup, hjoin_ne, hjoin_inj, hkey_inj, hfile_dir⟩ := hwf
  obtain ⟨hkeys, hleafIn, hleafOut, hdirs⟩ := hinv
  have htarget : (⟨joinPath (splitPath r).dropLast, r⟩ : FileEdge).target = r := rfl
  refine ⟨?_, ?_, ?_, ?_⟩
  · intro s
    rw [hkeys s]
    constructor
    · exact fun h => Or.inl h
    · rintro (h | ⟨t, h1, h2, _⟩)
      · exact h
      · omega
  · intro p hp hpF
    rcases List.mem_append.mp hpF with hpF | hpr
    · rw [targetFilter_append, hleafIn p hp hpF, targetFilter_single_ne _ _
        (fun hc => hrF (by rw [htarget] at hc; exact hc ▸ hpF)), List.append_nil]
    · rw [List.mem_singleton] at hpr
      subst hpr
      rw [targetFilter_append, hleafOut p hp hrF, List.nil_append,
        targetFilter_single_eq _ _ htarget]
      have hlp : leafParent p = joinPath (splitPath p).dropLast := by
        unfold leafParent
        rw [if_neg (by omega)]
      rw [hlp]
  · intro p hp hpF
    have hpF1 : p ∉ F := fun h => hpF (List.mem_append.mpr (Or.inl h))
    have hpr : p ≠ r := fun h =>
      hpF (List.mem_append.mpr (Or.inr (List.mem_singleton.mpr h)))
    rw [targetFilter_append, hleafOut p hp hpF1, List.nil_append,
      targetFilter_single_ne _ _ (fun hc => hpr (by rw [htarget] at hc; exact hc.symm))]
  · intro q hq j hj1 hj2
    have hne : (⟨joinPath (splitPath r).dropLast, r⟩ : FileEdge).target
        ≠ joinPath ((splitPath q).take j) := by
      rw [htarget]
      exact hfile_dir r hr q hq j hj2 hj1
    constructor
    · intro hdisc
      rw [targetFilter_append,
        (hdirs q hq j hj1 hj2).1 (discoveredUpTo_zero.mp hdisc),
        targetFilter_single_ne _ _ hne, List.append_nil]
    · intro hnot
      rw [targetFilter_append,
        (hdirs q hq j hj1 hj2).2 (fun h => hnot (discoveredUpTo_zero.mpr h)),
        targetFilter_single_ne _ _ hne, List.append_nil]

theorem edgeInv_top_level (files F : List String) (r : String)
    (hwf : PathsWF files) (hr : r ∈ files) (hrF : r ∉ F)
    (hlen : ¬ 1 < (splitPath r).length) (st : EdgeAcc) (hinv : EdgeInv files F st) :
    EdgeInv files (F ++ [r]) ⟨st.edges ++ [⟨"/", r⟩], st.directoriesAdded⟩ := by
  obtain ⟨hnodup, hjoin_ne, hjoin_inj, hkey_inj, hfile_dir⟩ := hwf
  obtain ⟨hkeys, hleafIn, hleafOut, hdirs⟩ := hinv
  have htarget : (⟨"/", r⟩ : FileEdge).target = r := rfl
  have hrlen : (splitPath r).length ≤ 1 := by omega
  refine ⟨?_, ?_, ?_, ?_⟩
  · intro s
    rw [hkeys s]
    constructor
    · rintro ⟨q, hq, j, h1, h2, h3⟩
      exact ⟨q, List.mem_append.mpr (Or.inl hq), j, h1, h2, h3⟩
    · rintro ⟨q, hq, j, h1, h2, h3⟩
      rcases List.mem_append.mp hq with hq | hq
      · exact ⟨q, hq, j, h1, h2, h3⟩
      · rw [List.mem_singleton] at hq
        subst hq
        omega
  · intro p hp hpF
    rcases List.mem_append.mp hpF with hpF | hpr
    · rw [targetFilter_append, hleafIn p hp hpF, targetFilter_single_ne _ _
        (fun hc => hrF (by rw [htarget] at hc; exact hc ▸ hpF)), List.append_nil]
    · rw [List.mem_singleton] at hpr
      subst hpr
      rw [targetFilter_append, hleafOut p hp hrF, List.nil_append,
        targetFilter_single_eq _ _ htarget]
      have hlp : leafParent p = "/" := by
        unfold leafParent
        rw [if_pos hrlen]
      rw [hlp]
  · intro p hp hpF
    have hpF1 : p ∉ F := fun h => hpF (List.mem_append.mpr (Or.inl h))
    have hpr : p ≠ r := fun h =>
      hpF (List.mem_append.mpr (Or.inr (List.mem_singleton.mpr h)))
    rw [targetFilter_append, hleafOut p hp hpF1, List.nil_append,
      targetFilter_single_ne _ _ (fun hc => hpr (by rw [htarget] at hc; exact hc.symm))]
  · intro q hq j hj1 hj2
    have hne : (⟨"/", r⟩ : FileEdge).target ≠ joinPath ((splitPath q).take j) := by
      rw [htarget]
      exact hfile_dir r hr q hq j hj2 hj1
    constructor
    · intro hdisc
      rw [targetFilter_append,
        (hdirs q hq j hj1 hj2).1 ((discovered_append_top hrlen).mp hdisc),
        targetFilter_single_ne _ _ hne, List.append_nil]
    · intro hnot
      rw [targetFilter_append,
        (hdirs q hq j hj1 hj2).2 (fun h => hnot ((discovered_append_top hrlen).mpr h)),
        targetFilter_single_ne _ _ hne, List.append_nil]

theorem addFileEdges_inv (files F R : List String) (r : String)
    (hwf : PathsWF files) (hsplit : files = F ++ r :: R)
    (st : EdgeAcc) (hinv : EdgeInv files F st) :
    EdgeInv files (F ++ [r]) (addFileEdges st r) := by
  have hr : r ∈ files := by
    rw [hsplit]
    exact List.mem_append.mpr (Or.inr (List.mem_cons_self _ _))
  have hrF : r ∉ F := by
    have hnodup := hwf.1
    rw [hsplit] at hnodup
    rcases List.nodup_append.mp hnodup with ⟨_, _, hdisj⟩
    intro hrF
    exact hdisj hrF (List.mem_cons_self _ _)
  have hFsub : ∀ x ∈ F, x ∈ files := by
    intro x hx
    rw [hsplit]
    exact List.mem_append.mpr (Or.inl hx)
  unfold addFileEdges
  by_cases hlen : 1 < (splitPath r).length
  · rw [if_pos hlen]
    apply edgeInvDir_final files F r hlen
    have hstart := edgeInvDir_start files F r hwf hr hrF hlen st hinv
    exact dirLoop_inv files F r hwf hr hFsub ((splitPath r).length - 1) 0 _
      (by omega) hstart
  · rw [if_neg hlen]
    exact edgeInv_top_level files F r hwf hr hrF hlen st hinv

theorem edgeInv_init (files : List String) : EdgeInv files [] ⟨[], []⟩ := by
  refine ⟨?_, ?_, ?_, ?_⟩
  · intro s
    simp
  · intro p _ hpF
    exact absurd hpF (List.not_mem_nil p)
  · intro p _ _
    rfl
  · intro q _ j _ _
    constructor
    · rintro ⟨q0, hq0, _⟩
      exact absurd hq0 (List.not_mem_nil q0)
    · intro _
      rfl

theorem foldl_addFileEdges_inv (files : List String) (hwf : PathsWF files) :
    ∀ (R F : List String) (st : EdgeAcc), files = F ++ R → EdgeInv files F st →
      EdgeInv files (F ++ R) (R.foldl addFileEdges st) := by
  intro R
  induction R with
  | nil =>
    intro F st h hinv
    simpa using hinv
  | cons r R2 ih =>
    intro F st h hinv
    have hstep := addFileEdges_inv files F R2 r hwf h st hinv
    have h2 : files = (F ++ [r]) ++ R2 := by
      rw [h]
      simp
    have hres := ih (F ++ [r]) (addFileEdges st r) h2 hstep
    simpa using hres

theorem dirNodesLoop_spec (parts : List String) :
    ∀ (rem i : Nat) (acc : List String), acc.Nodup →
      (dirNodesLoop parts i rem acc).Nodup
      ∧ (∀ d, d ∈ dirNodesLoop parts i rem acc ↔
          d ∈ acc ∨ ∃ t, i + 1 ≤ t ∧ t ≤ i + rem ∧ d = joinPath (parts.take t)) := by
  intro rem
  induction rem with
  | zero =>
    intro i acc hnd
    simp only [dirNodesLoop]
    refine ⟨hnd, fun d => ⟨fun h => Or.inl h, ?_⟩⟩
    rintro (h | ⟨t, h1, h2, _⟩)
    · exact h
    · omega
  | succ rem ih =>
    intro i acc hnd
    simp only [dirNodesLoop]
    by_cases hmem : joinPath (parts.take (i + 1)) ∈ acc
    · rw [if_pos hmem]
      obtain ⟨h1, h2⟩ := ih (i + 1) acc hnd
      refine ⟨h1, fun d => ?_⟩
      rw [h2 d]
      constructor
      · rintro (h | ⟨t, ht1, ht2, ht3⟩)
        · exact Or.inl h
        · exact Or.inr ⟨t, by omega, by omega, ht3⟩
      · rintro (h | ⟨t, ht1, ht2, ht3⟩)
        · exact Or.inl h
        · by_cases ht : i + 2 ≤ t
          · exact Or.inr ⟨t, ht, by omega, ht3⟩
          · have htt : t = i + 1 := by omega
            subst htt
            exact Or.inl (ht3 ▸ hmem)
    · rw [if_neg hmem]
      have hnd2 : (acc ++ [joinPath (parts.take (i + 1))]).Nodup := by
        rw [List.nodup_append]
        refine ⟨hnd, List.nodup_singleton _, ?_⟩
        intro x hx hx2
        rw [List.mem_singleton] at hx2
        subst hx2
        exact hmem hx
      obtain ⟨h1, h2⟩ := ih (i + 1) _ hnd2
      refine ⟨h1, fun d => ?_⟩
      rw [h2 d]
      constructor
      · rintro (h | ⟨t, ht1, ht2, ht3⟩)
        · rcases List.mem_append.mp h with h | h
          · exact Or.inl h
          · rw [List.mem_singleton] at h
            exact Or.inr ⟨i + 1, le_refl _, by omega, h⟩
        · exact Or.inr ⟨t, by omega, by omega, ht3⟩
      · rintro (h | ⟨t, ht1, ht2, ht3⟩)
        · exact Or.inl (List.mem_append.mpr (Or.inl h))
        · by_cases ht : i + 2 ≤ t
          · exact Or.inr ⟨t, ht, by omega, ht3⟩
          · have htt : t = i + 1 := by omega
            subst htt
            exact Or.inl (List.mem_append.mpr (Or.inr (List.mem_singleton.mpr ht3)))

theorem buildDirNodes_fold_spec :
    ∀ (R F : List String) (acc : List String), acc.Nodup →
      (∀ d, d ∈ acc ↔ ∃ q ∈ F, ∃ j, 1 ≤ j ∧ j < (splitPath q).length
        ∧ d = joinPath ((splitPath q).take j)) →
      (R.foldl (fun acc path =>
          dirNodesLoop (splitPath path) 0 ((splitPath path).length - 1) acc) acc).Nodup
      ∧ (∀ d, d ∈ R.foldl (fun acc path =>
          dirNodesLoop (splitPath path) 0 ((splitPath path).length - 1) acc) acc ↔
          ∃ q ∈ F ++ R, ∃ j, 1 ≤ j ∧ j < (splitPath q).length
            ∧ d = joinPath ((splitPath q).take j)) := by
  intro R
  induction R with
  | nil =>
    intro F acc hnd hchar
    simp only [List.foldl_nil, List.append_nil]
    exact ⟨hnd, hchar⟩
  | cons r R2 ih =>
    intro F acc hnd hchar
    simp only [List.foldl_cons]
    have hpos := splitPath_length_pos r
    obtain ⟨h1, h2⟩ := dirNodesLoop_spec (splitPath r)
      ((splitPath r).length - 1) 0 acc hnd
    have hchar2 : ∀ d, d ∈ dirNodesLoop (splitPath r) 0 ((splitPath r).length - 1) acc ↔
        ∃ q ∈ F ++ [r], ∃ j, 1 ≤ j ∧ j < (splitPath q).length
          ∧ d = joinPath ((splitPath q).take j) := by
      intro d
      rw [h2 d]
      constructor
      · rintro (h | ⟨t, ht1, ht2, ht3⟩)
        · obtain ⟨q, hq, j, hj1, hj2, hj3⟩ := (hchar d).mp h
          exact ⟨q, List.mem_append.mpr (Or.inl hq), j, hj1, hj2, hj3⟩
        · exact ⟨r, List.mem_append.mpr (Or.inr (List.mem_singleton.mpr rfl)), t,
            by omega, by omega, ht3⟩
      · rintro ⟨q, hq, j, hj1, hj2, hj3⟩
        rcases List.mem_append.mp hq with hq | hq
        · exact Or.inl ((hchar d).mpr ⟨q, hq, j, hj1, hj2, hj3⟩)
        · rw [List.mem_singleton] at hq
          subst hq
          exact Or.inr ⟨j, by omega, by omega, hj3⟩
    have hres := ih (F ++ [r]) _ h1 hchar2
    constructor
    · exact hres.1
    · intro d
      rw [hres.2 d]
      constructor
      · rintro ⟨q, hq, rest⟩
        refine ⟨q, ?_, rest⟩
        simpa using hq
      · rintro ⟨q, hq, rest⟩
        refine ⟨q, ?_, rest⟩
        simpa using hq

/-! ## Claim C6 -/

/-- C6: over any well-formed flat path list, the edge builder gives every
produced node except the synthetic root exactly one parent edge — each file
path's single parent edge comes from its immediate containing directory
(the synthetic root `/` for top-level paths), and each synthesized
directory's single parent edge comes from its immediate parent prefix — and
the synthesized directory nodes are exactly the proper path prefixes,
deduplicated; in particular for the single path `a/b/c/d.ts` the builder
produces directory nodes `a`, `a/b`, `a/b/c` exactly once each and exactly
the 4 parent edges root→`a`, `a`→`a/b`, `a/b`→`a/b/c`,
`a/b/c`→`a/b/c/d.ts`. -/
theorem C6_snapshot_edge_completeness (files : List String) (hwf : PathsWF files) :
    (∀ p ∈ files, targetFilter (buildEdges files) p = [⟨leafParent p, p⟩]) ∧
    (∀ q ∈ files, ∀ j, 1 ≤ j → j < (splitPath q).length →
      targetFilter (buildEdges files) (joinPath ((splitPath q).take j))
        = [dirEdge (splitPath q) j]) ∧
    (buildDirNodes files).Nodup ∧
    (∀ d, d ∈ buildDirNodes files ↔
      ∃ q ∈ files, ∃ j, 1 ≤ j ∧ j < (splitPath q).length
        ∧ d = joinPath ((splitPath q).take j)) ∧
    buildEdges ["a/b/c/d.ts"]
      = [⟨"a/b/c", "a/b/c/d.ts"⟩, ⟨"/", "a"⟩, ⟨"a", "a/b"⟩, ⟨"a/b", "a/b/c"⟩] ∧
    buildDirNodes ["a/b/c/d.ts"] = ["a", "a/b", "a/b/c"] := by
  have hinv := foldl_addFileEdges_inv files hwf files [] ⟨[], []⟩ (by simp)
    (edgeInv_init files)
  rw [List.nil_append] at hinv
  obtain ⟨hkeys, hleafIn, hleafOut, hdirs⟩ := hinv
  have hnodes := buildDirNodes_fold_spec files [] [] List.nodup_nil
    (fun d => by simp)
  rw [List.nil_append] at hnodes
  refine ⟨?_, ?_, hnodes.1, hnodes.2, by decide, by decide⟩
  · intro p hp
    exact hleafIn p hp hp
  · intro q hq j hj1 hj2
    exact (hdirs q hq j hj1 hj2).1 ⟨q, hq, j, hj1, hj2, rfl⟩

/-- Witness for C6 at the claim's concrete path list. -/
theorem C6_snapshot_edge_completeness_witness :
    PathsWF ["a/b/c/d.ts"] ∧
    targetFilter (buildEdges ["a/b/c/d.ts"]) "a/b/c/d.ts"
      = [⟨leafParent "a/b/c/d.ts", "a/b/c/d.ts"⟩] :=
  ⟨by decide,
   (C6_snapshot_edge_completeness ["a/b/c/d.ts"] (by decide)).1 "a/b/c/d.ts" (by decide)⟩

end RepoTimeline
